import Mathlib

/-!
Verification development for the nestjs-io-ts validation core.

This file gives a shallow embedding of the library's codec/validation
engine (src/validate.ts, src/combinators.ts, src/with-message.ts,
src/exception.ts, src/extends/Email.ts) together with the parts of the
io-ts dependency (version 2.2.x) that the library builds on
(t.string/t.number/t.boolean primitives, t.brand, t.type, t.array and
the decode protocol), and proves the frozen claims about it.
-/

namespace NestIoTs

/-- JSON-like runtime values of the JavaScript host, including the
distinguished `undefined` value. Numbers are modelled as integers
(no claim depends on fractional behaviour). -/
inductive Value where
  | null
  | undef
  | bool (b : Bool)
  | num (n : Int)
  | str (s : String)
  | arr (elems : List Value)
  | obj (fields : List (String × Value))

/-- A thrown JavaScript exception. `message = some m` models
`new Error(m)`; `none` models a thrown non-`Error` value. -/
structure JsThrow where
  message : Option String
deriving DecidableEq, Repr

/-- The `invalid` entry of `CustomErrorMessages` in src/with-message.ts:
`string | ((value: unknown) => string)`. -/
inductive CustomInvalid where
  | msg (s : String)
  | fn (f : Value → String)

/-- `CustomErrorMessages` from src/with-message.ts. -/
structure CustomErrorMessages where
  invalid : Option CustomInvalid := none
  required : Option String := none
  code : Option String := none
  suggestion : Option String := none

/-- The projection of an io-ts codec that error formatting reads from a
context entry: its `name` and the custom-message side table attached by
`withMessage` (the symbol-keyed property). -/
structure TypeInfo where
  name : String
  custom : Option CustomErrorMessages

/-- One entry of an io-ts validation context (`t.ContextEntry`):
a key, the codec expected at that position, and the actual value
(`appendContext` in io-ts stores all three). -/
structure ContextEntry where
  key : String
  type_ : TypeInfo
  actual : Value

/-- An io-ts `t.ValidationError`: the offending value, the full context
path, and an optional free-text message. -/
structure VFailure where
  value : Value
  context : List ContextEntry
  message : Option String

/-- An io-ts `Validation` result: `Right(value)` or `Left(errors)`. -/
inductive VResult where
  | ok (v : Value)
  | errs (es : List VFailure)

/-- A cross-field validation error (`CrossValidationError` in
src/combinators.ts). -/
structure CrossError where
  field : String
  message : String

mutual
/-- The codecs the claims are about, as a tagged variant. `prim` covers
io-ts primitive codecs (t.string, t.number, t.boolean: a name and a
typeof-style check); the other constructors embed t.brand, t.type,
t.array and the library's withDefault / withMessage / crossValidate /
transform combinators. Validator and transformer functions may throw,
which is modelled by `Except JsThrow`. -/
inductive Codec where
  | prim (name : String) (check : Value → Bool)
  | brand (base : Codec) (pred : Value → Bool) (name : String)
  | record (fields : Fields)
  | array (item : Codec)
  | withDefault (base : Codec) (dflt : Value)
  | withMessage (base : Codec) (msgs : CustomErrorMessages)
  | crossValidate (base : Codec) (validator : Value → Except JsThrow (List CrossError))
  | transform (base : Codec) (mapper : Value → Except JsThrow Value)

/-- The field list of a `t.type` record codec. -/
inductive Fields where
  | nil
  | cons (key : String) (codec : Codec) (rest : Fields)
end

/-- `JSON.stringify` restricted to the values of our model, used only to
build the display name of `withDefault` codecs
(`withDefault(${codec.name}, ${JSON.stringify(defaultValue)})`; in a
template literal `JSON.stringify(undefined)` renders as "undefined"). -/
def jsonStringify : Value → String
  | .null => "null"
  | .undef => "undefined"
  | .bool b => if b then "true" else "false"
  | .num n => toString n
  | .str s => "\"" ++ s ++ "\""
  | .arr es => "[" ++ String.intercalate ","
      (es.attach.map (fun e => jsonStringify e.1)) ++ "]"
  | .obj fs => "\x7b" ++ String.intercalate ","
      (fs.attach.map (fun kv => "\"" ++ kv.1.1 ++ "\":" ++ jsonStringify kv.1.2)) ++
      "\x7d"
decreasing_by
  · have := List.sizeOf_lt_of_mem e.2; simp at this ⊢; try omega
  · have := List.sizeOf_lt_of_mem kv.2
    have h2 : sizeOf kv.1.2 < sizeOf kv.1 := by
      rcases kv.1 with ⟨a, b⟩; simp; try omega
    simp at this ⊢; try omega

mutual
/-- The io-ts `name` of a codec. Records use io-ts's
`getInterfaceTypeName`; the combinators use the template literals from
src/combinators.ts; `withMessage` keeps the wrapped codec's name. -/
def codecName : Codec → String
  | .prim n _ => n
  | .brand _ _ n => n
  | .record fs => "\x7b " ++ fieldsName fs ++ " \x7d"
  | .array item => "Array<" ++ codecName item ++ ">"
  | .withDefault base d => "withDefault(" ++ codecName base ++ ", " ++ jsonStringify d ++ ")"
  | .withMessage base _ => codecName base
  | .crossValidate base _ => "crossValidate(" ++ codecName base ++ ")"
  | .transform base _ => "transform(" ++ codecName base ++ ")"

/-- io-ts `getNameFromProps`: `key: name` entries joined with ", ". -/
def fieldsName : Fields → String
  | .nil => ""
  | .cons k c .nil => k ++ ": " ++ codecName c
  | .cons k c (.cons k' c' rest) =>
    k ++ ": " ++ codecName c ++ ", " ++ fieldsName (.cons k' c' rest)
end

/-- The custom-message side table of a codec: only `withMessage`
attaches one (src/with-message.ts stores it under a symbol key on the
wrapping codec). -/
def customOf : Codec → Option CustomErrorMessages
  | .withMessage _ m => some m
  | _ => none

/-- The projection of a codec stored in context entries. -/
def typeInfoOf (c : Codec) : TypeInfo :=
  { name := codecName c, custom := customOf c }

/-- JavaScript property read `a[k]` on an object: the first binding of
the key, or `undefined` when the key is absent. -/
def jsLookup (k : String) : List (String × Value) → Value
  | [] => .undef
  | (k', v) :: rest => if k' = k then v else jsLookup k rest

/-- The io-ts array guard loop: every element passes the guard. -/
def allIs (f : Value → Bool) : List Value → Bool
  | [] => true
  | v :: vs => f v && allIs f vs

mutual
/-- The io-ts type guard `is` of each codec. `withDefault`,
`withMessage`, `crossValidate` and `transform` all reuse the base
codec's `is` (src/combinators.ts, src/with-message.ts). -/
def codecIs : Codec → Value → Bool
  | .prim _ check, v => check v
  | .brand base pred _, v => codecIs base v && pred v
  | .record fs, v =>
    match v with
    | .obj kvs => fieldsIs fs kvs
    | _ => false
  | .array item, v =>
    match v with
    | .arr es => allIs (fun e => codecIs item e) es
    | _ => false
  | .withDefault base _, v => codecIs base v
  | .withMessage base _, v => codecIs base v
  | .crossValidate base _, v => codecIs base v
  | .transform base _, v => codecIs base v

/-- `is` for a record: every declared field's value (missing keys read
as `undefined`) passes the field codec's guard. -/
def fieldsIs : Fields → List (String × Value) → Bool
  | .nil, _ => true
  | .cons k c rest, kvs => codecIs c (jsLookup k kvs) && fieldsIs rest kvs
end

/-- JavaScript property write `a[k] = v`: replaces the first binding in
place, or appends the key at the end when absent. -/
def setKey : List (String × Value) → String → Value → List (String × Value)
  | [], k, v => [(k, v)]
  | (k', v') :: rest, k, v =>
    if k' = k then (k, v) :: rest else (k', v') :: setKey rest k v

/-- io-ts `appendContext(c, key, decoder, actual)`. -/
def appendCtx (c : List ContextEntry) (key : String) (ti : TypeInfo) (actual : Value) :
    List ContextEntry :=
  c ++ [⟨key, ti, actual⟩]

/-- The message rendered by crossValidate for a non-empty error list:
`crossErrors.map((e) => `${e.field}: ${e.message}`).join('; ')`. -/
def joinCrossErrors (es : List CrossError) : String :=
  String.intercalate "; " (es.map (fun e => e.field ++ ": " ++ e.message))

/-- Runs a per-element validation over an array's elements (the io-ts
`t.array` loop): the first thrown exception propagates; otherwise all
failures are concatenated in element order and the decoded elements
kept. `i` is the current index. -/
def runItems (f : Value → Nat → Except JsThrow VResult) :
    List Value → Nat → Except JsThrow (List VFailure × List Value)
  | [], _ => .ok ([], [])
  | v :: vs, i =>
    match f v i with
    | .error th => .error th
    | .ok vr =>
      match runItems f vs (i + 1) with
      | .error th => .error th
      | .ok (es, outs) =>
        match vr with
        | .errs fes => .ok (fes ++ es, outs)
        | .ok a => .ok (es, a :: outs)

mutual
/-- The io-ts `validate` protocol of each codec, with thrown JavaScript
exceptions modelled by the `Except JsThrow` layer.

- primitives and brands (io-ts 2.2.x `Type` / `RefinementType`);
- `record` is io-ts `t.type`: non-records fail at the record itself,
  otherwise every field is validated (missing keys read as undefined)
  under an appended context entry, all failures collected;
- `array` is io-ts `t.array`: each element validated under an appended
  numeric-string key, all failures collected;
- `withDefault` (src/combinators.ts): input strictly equal to
  `undefined` succeeds immediately with the default, anything else
  delegates to the base codec;
- `withMessage` (src/with-message.ts): same validate as the base;
- `crossValidate` (src/combinators.ts): base first, its failures
  returned untouched; then the validator, whose exceptions are NOT
  caught; a non-empty error list becomes one failure at the given
  context whose message joins the pairs;
- `transform` (src/combinators.ts): base first; then the mapper inside
  try/catch, a thrown error becoming an ordinary failure carrying the
  thrown message (or "Transform failed" for non-Error throws). -/
def validate : Codec → Value → List ContextEntry → Except JsThrow VResult
  | .prim _n check, v, c =>
    if check v then .ok (.ok v) else .ok (.errs [⟨v, c, none⟩])
  | .brand base pred _n, v, c =>
    match validate base v c with
    | .error th => .error th
    | .ok (.errs es) => .ok (.errs es)
    | .ok (.ok a) => if pred a then .ok (.ok a) else .ok (.errs [⟨a, c, none⟩])
  | .record fs, v, c =>
    match v with
    | .obj kvs =>
      match validateFields fs kvs c with
      | .error th => .error th
      | .ok (es, ups) =>
        if es.isEmpty then
          .ok (.ok (.obj (ups.foldl (fun a kv => setKey a kv.1 kv.2) kvs)))
        else .ok (.errs es)
    | _ => .ok (.errs [⟨v, c, none⟩])
  | .array item, v, c =>
    match v with
    | .arr elems =>
      match runItems
          (fun e i => validate item e (appendCtx c (toString i) (typeInfoOf item) e))
          elems 0 with
      | .error th => .error th
      | .ok (es, vs) =>
        if es.isEmpty then .ok (.ok (.arr vs)) else .ok (.errs es)
    | _ => .ok (.errs [⟨v, c, none⟩])
  | .withDefault base dflt, v, c =>
    match v with
    | .undef => .ok (.ok dflt)
    | _ => validate base v c
  | .withMessage base _, v, c => validate base v c
  | .crossValidate base validator, v, c =>
    match validate base v c with
    | .error th => .error th
    | .ok (.errs es) => .ok (.errs es)
    | .ok (.ok a) =>
      match validator a with
      | .error th => .error th
      | .ok [] => .ok (.ok a)
      | .ok (e :: es) => .ok (.errs [⟨v, c, some (joinCrossErrors (e :: es))⟩])
  | .transform base mapper, v, c =>
    match validate base v c with
    | .error th => .error th
    | .ok (.errs es) => .ok (.errs es)
    | .ok (.ok a) =>
      match mapper a with
      | .ok b => .ok (.ok b)
      | .error th => .ok (.errs [⟨v, c, some (th.message.getD "Transform failed")⟩])

/-- The `t.type` field loop: validates each field under an appended
context entry, collecting all failures (in field order) and the decoded
values of the successful fields; a thrown exception aborts the loop. -/
def validateFields : Fields → List (String × Value) → List ContextEntry →
    Except JsThrow (List VFailure × List (String × Value))
  | .nil, _, _ => .ok ([], [])
  | .cons k s rest, kvs, c =>
    let ak := jsLookup k kvs
    match validate s ak (appendCtx c k (typeInfoOf s) ak) with
    | .error th => .error th
    | .ok r =>
      match validateFields rest kvs c with
      | .error th => .error th
      | .ok (es, ups) =>
        match r with
        | .errs fes => .ok (fes ++ es, ups)
        | .ok vk => .ok (es, (k, vk) :: ups)
end

/-- io-ts `Type.decode`: validate with the default context
`[{ key: '', type: this, actual: input }]`. -/
def decode (c : Codec) (v : Value) : Except JsThrow VResult :=
  validate c v [⟨"", typeInfoOf c, v⟩]

/-- Element-wise map used by array encoding. -/
def mapEnc (f : Value → Value) : List Value → List Value
  | [] => []
  | v :: vs => f v :: mapEnc f vs

mutual
/-- The io-ts `encode` of each codec: primitives are the identity,
brands encode through their base, records and arrays encode
structurally, and every combinator reuses the base codec's encode
(src/combinators.ts, src/with-message.ts). -/
def encodeC : Codec → Value → Value
  | .prim _ _, v => v
  | .brand base _ _, v => encodeC base v
  | .record fs, v =>
    match v with
    | .obj kvs => .obj (encodeFields fs kvs)
    | _ => v
  | .array item, v =>
    match v with
    | .arr es => .arr (mapEnc (fun e => encodeC item e) es)
    | _ => v
  | .withDefault base _, v => encodeC base v
  | .withMessage base _, v => encodeC base v
  | .crossValidate base _, v => encodeC base v
  | .transform base _, v => encodeC base v

/-- Structural encoding of a record's declared fields. -/
def encodeFields : Fields → List (String × Value) → List (String × Value)
  | .nil, kvs => kvs
  | .cons k c rest, kvs => setKey (encodeFields rest kvs) k (encodeC c (jsLookup k kvs))
end

/-- io-ts `t.string`. -/
def stringC : Codec :=
  .prim "string" (fun v => match v with | .str _ => true | _ => false)

/-- io-ts `t.number`. -/
def numberC : Codec :=
  .prim "number" (fun v => match v with | .num _ => true | _ => false)

/-- io-ts `t.boolean`. -/
def booleanC : Codec :=
  .prim "boolean" (fun v => match v with | .bool _ => true | _ => false)

/-! ## Error formatting (src/validate.ts) -/

/-- A `{code, message, suggestion}` triple as produced by
`getErrorInfo` and stored in `TYPE_ERROR_INFO`. -/
structure ErrorInfo where
  code : String
  message : String
  suggestion : Option String
deriving DecidableEq, Repr

/-- The `TYPE_ERROR_INFO` mapping of branded type names to error codes,
messages and suggestions (src/validate.ts). -/
def typeErrorInfoTable : List (String × ErrorInfo) := [
  ("Email", ⟨"INVALID_EMAIL", "Invalid email format",
    some "Please provide a valid email address (e.g., user@example.com)"⟩),
  ("UUID", ⟨"INVALID_UUID", "Invalid UUID format",
    some "Please provide a valid UUID (e.g., 550e8400-e29b-41d4-a716-446655440000)"⟩),
  ("URL", ⟨"INVALID_URL", "Invalid URL format",
    some "Please provide a valid URL starting with http:// or https://"⟩),
  ("Phone", ⟨"INVALID_PHONE", "Invalid phone number format",
    some "Please provide a valid phone number (e.g., +1-234-567-8900)"⟩),
  ("DateString", ⟨"INVALID_DATE", "Invalid date format",
    some "Please provide a date in ISO 8601 format (e.g., 2024-01-15)"⟩),
  ("DateTimeString", ⟨"INVALID_DATETIME", "Invalid datetime format",
    some "Please provide a datetime in ISO 8601 format (e.g., 2024-01-15T10:30:00Z)"⟩),
  ("IPv4", ⟨"INVALID_IPV4", "Invalid IPv4 address",
    some "Please provide a valid IPv4 address (e.g., 192.168.0.1)"⟩),
  ("IPv6", ⟨"INVALID_IPV6", "Invalid IPv6 address",
    some "Please provide a valid IPv6 address (e.g., 2001:db8::ff00:42:8329)"⟩),
  ("IP", ⟨"INVALID_IP", "Invalid IP address",
    some "Please provide a valid IPv4 or IPv6 address"⟩),
  ("Integer", ⟨"INVALID_INTEGER", "Value must be an integer",
    some "Please provide a whole number without decimals"⟩),
  ("PositiveNumber", ⟨"INVALID_POSITIVE_NUMBER", "Value must be a positive number",
    some "Please provide a number greater than 0"⟩),
  ("NonNegativeNumber", ⟨"INVALID_NON_NEGATIVE_NUMBER", "Value must be non-negative",
    some "Please provide a number greater than or equal to 0"⟩),
  ("PositiveInteger", ⟨"INVALID_POSITIVE_INTEGER", "Value must be a positive integer",
    some "Please provide a whole number greater than 0"⟩),
  ("Port", ⟨"INVALID_PORT", "Invalid port number",
    some "Please provide a port number between 0 and 65535"⟩),
  ("Percentage", ⟨"INVALID_PERCENTAGE", "Invalid percentage value",
    some "Please provide a number between 0 and 100"⟩),
  ("NonEmptyString", ⟨"INVALID_NON_EMPTY_STRING", "Value cannot be empty",
    some "Please provide a non-empty string"⟩),
  ("TrimmedString", ⟨"INVALID_TRIMMED_STRING", "Value cannot have leading or trailing whitespace",
    some "Please remove leading and trailing spaces"⟩),
  ("LowercaseString", ⟨"INVALID_LOWERCASE_STRING", "Value must be lowercase",
    some "Please provide a lowercase string"⟩),
  ("UppercaseString", ⟨"INVALID_UPPERCASE_STRING", "Value must be uppercase",
    some "Please provide an uppercase string"⟩),
  ("HexColor", ⟨"INVALID_HEX_COLOR", "Invalid hex color code",
    some "Please provide a valid hex color (e.g., #ff0000 or #f00)"⟩),
  ("Slug", ⟨"INVALID_SLUG", "Invalid slug format",
    some "Please provide a URL-safe slug using lowercase letters, numbers, and hyphens"⟩),
  ("Base64", ⟨"INVALID_BASE64", "Invalid Base64 encoding",
    some "Please provide a valid Base64 encoded string"⟩),
  ("JWT", ⟨"INVALID_JWT", "Invalid JWT format",
    some "Please provide a valid JSON Web Token"⟩)]

/-- `TYPE_ERROR_INFO[expected]` object lookup. -/
def lookupTypeErrorInfo (name : String) : Option ErrorInfo :=
  (typeErrorInfoTable.find? (fun p => p.1 == name)).map (fun p => p.2)

/-- The runtime category used in the generic mismatch message:
`null`, `undefined`, `array`, or the result of `typeof`. -/
def actualTypeName : Value → String
  | .null => "null"
  | .undef => "undefined"
  | .arr _ => "array"
  | .bool _ => "boolean"
  | .num _ => "number"
  | .str _ => "string"
  | .obj _ => "object"

/-- `getErrorInfo` from src/validate.ts. JavaScript truthiness of the
custom message strings is modelled faithfully: an empty `required` or
`invalid` string is falsy and the corresponding branch is skipped,
while a function-valued `invalid` is always truthy; `??` on the `code`
override keeps even an empty string. -/
def getErrorInfo (expected : String) (actualValue : Value)
    (customMessages : Option CustomErrorMessages) : ErrorInfo :=
  let isRequired : Bool :=
    match actualValue with
    | .undef => true
    | .null => true
    | _ => false
  let fromCustom : Option ErrorInfo :=
    match customMessages with
    | none => none
    | some cm =>
      if isRequired then
        match cm.required with
        | some r => if r = "" then none else some ⟨cm.code.getD "REQUIRED", r, cm.suggestion⟩
        | none => none
      else
        match cm.invalid with
        | some (.msg s) =>
          if s = "" then none else some ⟨cm.code.getD "INVALID_FORMAT", s, cm.suggestion⟩
        | some (.fn f) => some ⟨cm.code.getD "INVALID_FORMAT", f actualValue, cm.suggestion⟩
        | none => none
  match fromCustom with
  | some info => info
  | none =>
    match lookupTypeErrorInfo expected with
    | some ti => ti
    | none =>
      if isRequired then
        ⟨"REQUIRED", "Field is required",
         some ("Please provide a value of type " ++ expected)⟩
      else
        ⟨"INVALID_TYPE",
         "Expected " ++ expected ++ " but received " ++ actualTypeName actualValue,
         some ("Please provide a valid " ++ expected)⟩

/-- `isArrayIndex` from src/validate.ts: the key matches `/^\d+$/`. -/
def isArrayIndex (key : String) : Bool :=
  !key.isEmpty && key.toList.all (fun c => c.isDigit)

/-- `getFieldPath` from src/validate.ts: skip the root context entry,
drop empty keys, then join the keys, rendering an array-index key as
`[index]` appended to the path built so far and any other key as
`.key`; the very first retained key starts the path verbatim. -/
def getFieldPath (context : List ContextEntry) : String :=
  let keys := ((context.drop 1).map (fun e => e.key)).filter (fun k => k != "")
  match keys with
  | [] => ""
  | k0 :: rest =>
    rest.foldl
      (fun path k =>
        if isArrayIndex k then path ++ "[" ++ k ++ "]" else path ++ "." ++ k)
      k0

/-- `getExpectedType` from src/validate.ts:
`lastContext?.type?.name || 'unknown'` (an empty name is falsy). -/
def getExpectedType (context : List ContextEntry) : String :=
  match context.getLast? with
  | none => "unknown"
  | some e => if e.type_.name = "" then "unknown" else e.type_.name

/-- The user-facing `ValidationError` of src/types.ts. -/
structure ValidationError where
  field : String
  message : String
  value : Value
  expected : String
  code : String
  suggestion : Option String

/-- The `field` a raw failure formats to: the rendered context path, or
"root" when the path is empty (`getFieldPath(...) || 'root'`). -/
def failureField (f : VFailure) : String :=
  let path := getFieldPath f.context
  if path = "" then "root" else path

/-- The `ValidationError` built from one raw failure inside the
`formatErrors` loop: field, expected type, the custom messages read
from the deepest context entry's codec, and the `getErrorInfo`
outcome. -/
def mkValidationError (f : VFailure) : ValidationError :=
  let expected := getExpectedType f.context
  let custom :=
    match f.context.getLast? with
    | none => none
    | some e => e.type_.custom
  let info := getErrorInfo expected f.value custom
  ⟨failureField f, info.message, f.value, expected, info.code, info.suggestion⟩

/-- `formatErrors` from src/validate.ts: walk the raw failures in
order; a failure whose field is already present in the map is skipped,
otherwise its `ValidationError` is appended (JavaScript `Map` preserves
insertion order, so the emitted array is in first-seen order). -/
def formatErrors (errors : List VFailure) : List ValidationError :=
  errors.foldl
    (fun acc f =>
      if acc.any (fun x => x.field == failureField f) then acc
      else acc ++ [mkValidationError f])
    []

/-! ## decodeAndThrow and the exception (src/validate.ts, src/exception.ts) -/

/-- The structured error response of src/types.ts. -/
structure ValidationErrorResponse where
  statusCode : Nat
  message : String
  error : String
  errors : List ValidationError

/-- `IoTsValidationException` (src/exception.ts): stores the error list
and the response built at construction time with
`statusCode = HttpStatus.BAD_REQUEST (400)`, `message = 'Validation
failed'`, `error = 'Bad Request'`. -/
structure IoTsValidationException where
  errors : List ValidationError
  response : ValidationErrorResponse

/-- The exception constructor applied to an error array. -/
def mkIoTsValidationException (errors : List ValidationError) : IoTsValidationException :=
  ⟨errors, ⟨400, "Validation failed", "Bad Request", errors⟩⟩

/-- `getErrors()` accessor. -/
def IoTsValidationException.getErrors (e : IoTsValidationException) : List ValidationError :=
  e.errors

/-- `getResponse()` (inherited from BadRequestException: the object the
constructor passed to `super`). -/
def IoTsValidationException.getResponse (e : IoTsValidationException) : ValidationErrorResponse :=
  e.response

/-- `decodeAndThrow` from src/validate.ts: decode; on `Left`, format the
errors and throw `IoTsValidationException`; on `Right`, return the
value. The outer `Except JsThrow` layer carries exceptions thrown by
user-supplied functions during decoding, which this facade does not
catch. -/
def decodeAndThrow (v : Value) (c : Codec) :
    Except JsThrow (Except IoTsValidationException Value) :=
  match decode c v with
  | .error th => .error th
  | .ok (.ok a) => .ok (.ok a)
  | .ok (.errs es) => .ok (.error (mkIoTsValidationException (formatErrors es)))

/-! ## The Email branded codec (src/extends/Email.ts)

`EMAIL_REGEX` is
`^(?!.*\.\.)LOCAL@(DOMAIN)$` with
`LOCAL = X(?:Y*X)?` where `X = [a-zA-Z0-9!#$%&'*+/=?^_`{|}~-]` and
`Y = X ∪ {.}`, and
`DOMAIN = LABEL(\.LABEL)*\.[a-zA-Z]{2,}` with
`LABEL = [a-zA-Z0-9](?:[a-zA-Z0-9-]*[a-zA-Z0-9])?`.
The matcher below decides the same language:
`X(?:Y*X)?` matches exactly the nonempty strings over `Y` whose first
and last characters are in `X`; the anchored whole-string match forces
the regex's `@` to be the string's unique `@` (neither `X`, `Y` nor
the domain classes contain `@`); and the domain language is exactly
"split on dots: at least two parts, all but the last are LABELs, the
last is two or more letters". -/

/-- The special (non-alphanumeric) characters of the local-part atom
class `[a-zA-Z0-9!#$%&'*+/=?^_`{|}~-]`. -/
def atomSpecials : List Char :=
  ['!', '#', '$', '%', '&', Char.ofNat 39, '*', '+', '/', '=', '?', '^', '_',
   Char.ofNat 96, Char.ofNat 123, '|', Char.ofNat 125, '~', '-']

/-- Membership in the atom class `X` (no dot). -/
def isAtomChar (c : Char) : Bool :=
  c.isAlphanum || atomSpecials.contains c

/-- Membership in the extended class `Y = X ∪ {.}`. -/
def isAtomDotChar (c : Char) : Bool :=
  isAtomChar c || c = '.'

/-- The local part `X(?:Y*X)?`: nonempty, first and last characters in
`X`, everything in between in `Y`. -/
def localMatches : List Char → Bool
  | [] => false
  | c :: rest =>
    match rest.getLast? with
    | none => isAtomChar c
    | some d => isAtomChar c && isAtomChar d && rest.dropLast.all isAtomDotChar

/-- A domain `LABEL = [a-zA-Z0-9](?:[a-zA-Z0-9-]*[a-zA-Z0-9])?`:
nonempty, alphanumeric at both ends, alphanumeric or hyphen inside. -/
def labelMatches : List Char → Bool
  | [] => false
  | c :: rest =>
    match rest.getLast? with
    | none => c.isAlphanum
    | some d =>
      c.isAlphanum && d.isAlphanum && rest.dropLast.all (fun x => x.isAlphanum || x = '-')

/-- The final `[a-zA-Z]{2,}` group. -/
def tldMatches (p : List Char) : Bool :=
  decide (2 ≤ p.length) && p.all (fun c => c.isAlpha)

/-- Split a character list at every dot (keeping empty parts). -/
def splitOnDots : List Char → List (List Char)
  | [] => [[]]
  | c :: rest =>
    let r := splitOnDots rest
    if c = '.' then [] :: r
    else
      match r with
      | [] => [[c]]
      | p :: ps => (c :: p) :: ps

/-- The domain `LABEL(\.LABEL)*\.[a-zA-Z]{2,}`: split on dots, at least
two parts, all but the last are labels, the last is a TLD. -/
def domainMatches (cs : List Char) : Bool :=
  let parts := splitOnDots cs
  match parts.getLast? with
  | none => false
  | some tld => decide (2 ≤ parts.length) && parts.dropLast.all labelMatches && tldMatches tld

/-- The negative lookahead `(?!.*\.\.)`: the string contains two
consecutive dots somewhere. -/
def hasDoubleDot : List Char → Bool
  | c1 :: c2 :: rest => (c1 = '.' && c2 = '.') || hasDoubleDot (c2 :: rest)
  | _ => false

/-- Split at the first `@`, if any (`s.indexOf('@')` plus the two
`slice` calls in src/extends/Email.ts). -/
def splitAtFirstAtSign : List Char → Option (List Char × List Char)
  | [] => none
  | c :: rest =>
    if c = '@' then some ([], rest)
    else (splitAtFirstAtSign rest).map (fun p => (c :: p.1, p.2))

/-- Whole-string match of `EMAIL_REGEX`. -/
def emailRegexTest (s : String) : Bool :=
  let cs := s.toList
  !hasDoubleDot cs &&
    (match splitAtFirstAtSign cs with
     | none => false
     | some (loc, dom) =>
       !dom.contains '@' && localMatches loc && domainMatches dom)

/-- `isValidEmail` from src/extends/Email.ts: total length at most 254,
an `@` must exist, the part before the first `@` is at most 64
characters, the part after it at most 255, then the regex decides. -/
def isValidEmail (s : String) : Bool :=
  if s.length > 254 then false
  else
    match splitAtFirstAtSign s.toList with
    | none => false
    | some (loc, dom) =>
      if loc.length > 64 then false
      else if dom.length > 255 then false
      else emailRegexTest s

/-- The `Email` branded codec: `t.brand(t.string, isValidEmail, 'Email')`. -/
def EmailC : Codec :=
  .brand stringC (fun v => match v with | .str s => isValidEmail s | _ => false) "Email"

/-! ## Auxiliary views of the data used by the theorems -/

/-- The declared fields of a record codec as a list of pairs. -/
def fieldsList : Fields → List (String × Codec)
  | .nil => []
  | .cons k c rest => (k, c) :: fieldsList rest

/-- The declared field names of a record codec. -/
def fieldsKeys : Fields → List String
  | .nil => []
  | .cons k _ rest => k :: fieldsKeys rest

/-- Extracts the failure list of a non-throwing decode (empty
otherwise); used to state concrete evaluations. -/
def errsOf : Except JsThrow VResult → List VFailure
  | .ok (.errs es) => es
  | _ => []

/-! ## Specification-side definitions

The following definitions are written from the wording of the
specification (not from the source); each is compared against the
corresponding source-derived definition in a refinement theorem. -/

/-- (spec) A value is "absent": null or undefined. -/
def isAbsent : Value → Bool
  | .undef => true
  | .null => true
  | _ => false

/-- (spec) The custom `required` message carried by a message binding,
when present (a JavaScript-falsy empty string does not count as
carried), together with the code and suggestion overrides. -/
def specCustomRequired (cm? : Option CustomErrorMessages) :
    Option (String × Option String × Option String) :=
  match cm? with
  | some cm =>
    match cm.required with
    | some r => if r = "" then none else some (r, cm.code, cm.suggestion)
    | none => none
  | none => none

/-- (spec) The custom `invalid` message rendered at the offending
value, when present (an empty string does not count; a function always
does), together with the code and suggestion overrides. -/
def specCustomInvalid (v : Value) (cm? : Option CustomErrorMessages) :
    Option (String × Option String × Option String) :=
  match cm? with
  | some cm =>
    match cm.invalid with
    | some (.msg s) => if s = "" then none else some (s, cm.code, cm.suggestion)
    | some (.fn f) => some (f v, cm.code, cm.suggestion)
    | none => none
  | none => none

/-- (spec, claim C1) The `{code, message, suggestion}` selection stated
as the claim's precedence: (a) absent value with a custom required
message (code REQUIRED unless overridden); (b) present value with a
custom invalid message (code INVALID_FORMAT unless overridden); (c) a
known branded type's default triple; (d) absent value: generic REQUIRED
with a suggestion naming the expected type; (e) generic INVALID_TYPE
with the "Expected X but received Y" message. -/
def getErrorInfoSpec (expected : String) (v : Value)
    (cm? : Option CustomErrorMessages) : ErrorInfo :=
  if isAbsent v then
    match specCustomRequired cm? with
    | some (m, code, sug) => ⟨code.getD "REQUIRED", m, sug⟩
    | none =>
      match lookupTypeErrorInfo expected with
      | some ti => ti
      | none =>
        ⟨"REQUIRED", "Field is required",
         some ("Please provide a value of type " ++ expected)⟩
  else
    match specCustomInvalid v cm? with
    | some (m, code, sug) => ⟨code.getD "INVALID_FORMAT", m, sug⟩
    | none =>
      match lookupTypeErrorInfo expected with
      | some ti => ti
      | none =>
        ⟨"INVALID_TYPE",
         "Expected " ++ expected ++ " but received " ++ actualTypeName v,
         some ("Please provide a valid " ++ expected)⟩

/-- (spec, amended claim C3) The path renderer: the first retained key
verbatim, every later key `k` as `[k]` when `k` is a nonempty digit
string and as `.k` otherwise. -/
def renderPathSpec (keys : List String) : String :=
  match keys with
  | [] => ""
  | k0 :: rest =>
    rest.foldl
      (fun path k =>
        if isArrayIndex k then path ++ "[" ++ k ++ "]" else path ++ "." ++ k)
      k0

/-- (spec, claim C4) First-seen deduplication by field: keep a
formatted failure only when its field is not among the fields already
seen. -/
def dedupFrom (seen : List String) : List VFailure → List ValidationError
  | [] => []
  | f :: fs =>
    if seen.contains (failureField f) then dedupFrom seen fs
    else mkValidationError f :: dedupFrom (failureField f :: seen) fs

/-- (spec, claim C4) Formatting as the specification states it: format
every raw failure in order, keeping only the first one for each field
path. -/
def formatErrorsSpec (errors : List VFailure) : List ValidationError :=
  dedupFrom [] errors

/-! ## Claims -/

/-- Claim C1: for every formatted validation error, the
{code, message, suggestion} triple produced by `getErrorInfo` is chosen
by exactly the claimed precedence (a) custom required message for
absent values, (b) custom invalid message for present values, (c)
branded-type default table, (d) generic REQUIRED, (e) generic
INVALID_TYPE with the runtime category of the value. -/
theorem claim1_getErrorInfo_precedence
    (expected : String) (v : Value) (cm? : Option CustomErrorMessages) :
    getErrorInfo expected v cm? = getErrorInfoSpec expected v cm? := by
  rcases cm? with _ | ⟨inv, req, code, sug⟩
  · cases v <;>
      simp [getErrorInfo, getErrorInfoSpec, specCustomRequired, specCustomInvalid, isAbsent]
  · rcases inv with _ | ⟨s⟩ | ⟨f⟩ <;> rcases req with _ | r <;> cases v <;>
      simp only [getErrorInfo, getErrorInfoSpec, specCustomRequired, specCustomInvalid,
        isAbsent] <;>
    first
      | rfl
      | (by_cases hr : r = "" <;> by_cases hs : s = "" <;> simp [hr, hs])
      | (by_cases hr : r = "" <;> simp [hr])
      | (by_cases hs : s = "" <;> simp [hs])

/-- Claim C6: `withDefault(S, d)` decodes the exact value `undefined`
immediately to `d` for every inner codec `S` (so `S`'s validate and
predicate are never consulted and `d` is never revalidated), and on
every other input its validation coincides with `S`'s own validation. -/
theorem claim6_withDefault_decode (S : Codec) (d : Value) :
    (∀ c, validate (.withDefault S d) .undef c = .ok (.ok d)) ∧
    decode (.withDefault S d) .undef = .ok (.ok d) ∧
    (∀ (v : Value) (c : List ContextEntry), v ≠ .undef →
      validate (.withDefault S d) v c = validate S v c) := by
  refine ⟨fun c => rfl, rfl, fun v c hv => ?_⟩
  cases v <;> first | rfl | exact absurd rfl hv

/-- Witness for claim C6: a boolean codec with default `true` rejects a
string exactly as the bare boolean codec does. -/
theorem claim6_witness :
    validate (.withDefault booleanC (.bool true)) (.str "no") [] =
      validate booleanC (.str "no") [] :=
  (claim6_withDefault_decode booleanC (.bool true)).2.2 (.str "no") []
    (by simp)

/-- Claim C10: the type guard of `withDefault(S, d)` is exactly `S.is`;
when `S.is` rejects `undefined` the guard rejects `undefined` although
decode succeeds on it, so (for any inner codec whose guard implies
validation success) the guard-accepted set is strictly smaller than the
decode-success set. -/
theorem claim10_withDefault_is (S : Codec) (d : Value)
    (hcoh : ∀ (v : Value) (c : List ContextEntry),
      codecIs S v = true → ∃ a, validate S v c = .ok (.ok a))
    (h0 : codecIs S .undef = false) :
    codecIs (.withDefault S d) = codecIs S ∧
    codecIs (.withDefault S d) .undef = false ∧
    decode (.withDefault S d) .undef = .ok (.ok d) ∧
    {v : Value | codecIs (.withDefault S d) v = true} ⊂
      {v : Value | ∃ a, decode (.withDefault S d) v = .ok (.ok a)} := by
  have hguard : codecIs (.withDefault S d) = codecIs S := by
    funext v; rfl
  have hsub : {v : Value | codecIs (.withDefault S d) v = true} ⊆
      {v : Value | ∃ a, decode (.withDefault S d) v = .ok (.ok a)} := by
    intro v hv
    simp only [Set.mem_setOf_eq, hguard] at hv ⊢
    cases v with
    | undef => rw [h0] at hv; cases hv
    | _ =>
      obtain ⟨a, ha⟩ := hcoh _ _ hv
      exact ⟨a, ha⟩
  refine ⟨hguard, by rw [hguard]; exact h0, rfl, ?_⟩
  rw [Set.ssubset_iff_of_subset hsub]
  exact ⟨.undef, ⟨d, rfl⟩, by simp [hguard, h0]⟩

/-- Witness for claim C10: instantiated at the boolean codec (whose
guard implies validation success) with default `true`. -/
theorem claim10_witness :
    codecIs (.withDefault booleanC (.bool true)) = codecIs booleanC ∧
    codecIs (.withDefault booleanC (.bool true)) .undef = false ∧
    decode (.withDefault booleanC (.bool true)) .undef = .ok (.ok (.bool true)) ∧
    {v : Value | codecIs (.withDefault booleanC (.bool true)) v = true} ⊂
      {v : Value | ∃ a, decode (.withDefault booleanC (.bool true)) v = .ok (.ok a)} :=
  claim10_withDefault_is booleanC (.bool true)
    (fun v c hv => by cases v <;> first | exact ⟨_, rfl⟩ | exact absurd hv (by simp [codecIs, booleanC]))
    rfl

/-- A crossValidate codec whose validator throws, used to refute claim
C5: the base record accepts the input, then the validator raises. -/
def c5Codec : Codec :=
  .crossValidate (.record (.cons "name" stringC .nil))
    (fun _ => .error ⟨some "validator exploded"⟩)

/-- Counterexample to claim C5: an exception raised inside a
`crossValidate` validator function is NOT caught — it propagates out of
the decode call (and out of decodeAndThrow) as an unhandled exception. -/
theorem claim5_counterexample :
    decode c5Codec (.obj [("name", .str "ok")]) = .error ⟨some "validator exploded"⟩ ∧
    decodeAndThrow (.obj [("name", .str "ok")]) c5Codec = .error ⟨some "validator exploded"⟩ :=
  ⟨rfl, rfl⟩

/-- Amended claim C5: an exception raised inside a `transform` mapping
function is caught and converted into an ordinary validation failure
carrying the thrown error's message (so a transform never turns a
non-throwing base validation into an unhandled exception), but an
exception raised inside a `crossValidate` validator function is not
caught and propagates out of the decode call. -/
theorem claim5_transform_catches_crossValidate_propagates :
    (∀ (base : Codec) (f : Value → Except JsThrow Value) (v : Value)
       (c : List ContextEntry) (r : VResult),
       validate base v c = .ok r → ∃ r', validate (.transform base f) v c = .ok r') ∧
    (∀ (base : Codec) (f : Value → Except JsThrow Value) (v : Value)
       (c : List ContextEntry) (a : Value) (th : JsThrow),
       validate base v c = .ok (.ok a) → f a = .error th →
       validate (.transform base f) v c =
         .ok (.errs [⟨v, c, some (th.message.getD "Transform failed")⟩])) ∧
    (∀ (base : Codec) (g : Value → Except JsThrow (List CrossError)) (v : Value)
       (c : List ContextEntry) (a : Value) (th : JsThrow),
       validate base v c = .ok (.ok a) → g a = .error th →
       validate (.crossValidate base g) v c = .error th) := by
  refine ⟨fun base f v c r hb => ?_, fun base f v c a th hb hf => ?_,
    fun base g v c a th hb hg => ?_⟩
  · cases r with
    | ok a =>
      simp only [validate, hb]
      cases hf : f a <;> exact ⟨_, rfl⟩
    | errs es => exact ⟨.errs es, by simp only [validate, hb]⟩
  · simp only [validate, hb, hf]
  · simp only [validate, hb, hg]

/-- Witness for the amended claim C5, at a string base codec and
functions that throw `Error("boom")`. -/
theorem claim5_witness :
    validate (.transform stringC (fun _ => .error ⟨some "boom"⟩)) (.str "x") [] =
      .ok (.errs [⟨.str "x", [], some "boom"⟩]) ∧
    validate (.crossValidate stringC (fun _ => .error ⟨some "boom"⟩)) (.str "x") [] =
      .error ⟨some "boom"⟩ :=
  ⟨claim5_transform_catches_crossValidate_propagates.2.1 stringC _ (.str "x") [] (.str "x")
      ⟨some "boom"⟩ rfl rfl,
    claim5_transform_catches_crossValidate_propagates.2.2 stringC _ (.str "x") [] (.str "x")
      ⟨some "boom"⟩ rfl rfl⟩

/-- The crossValidate codec used to refute claim C7: the base record
accepts the input and the validator reports two field errors. -/
def c7Codec : Codec :=
  .crossValidate (.record (.cons "password" stringC (.cons "confirmPassword" stringC .nil)))
    (fun _ => .ok [⟨"confirmPassword", "Passwords do not match"⟩,
                   ⟨"confirmEmail", "Emails do not match"⟩])

/-- Counterexample to claim C7: when the validator reports two
{field, message} pairs, decode produces a SINGLE raw failure whose
message is the '; '-joined opaque string, and formatting yields one
ValidationError at field "root" — not one entry per reported field. -/
theorem claim7_counterexample :
    (errsOf (decode c7Codec (.obj [("password", .str "a"), ("confirmPassword", .str "b")]))).map
        (fun f => f.message) =
      [some "confirmPassword: Passwords do not match; confirmEmail: Emails do not match"] ∧
    (formatErrors (errsOf (decode c7Codec
        (.obj [("password", .str "a"), ("confirmPassword", .str "b")])))).map
        (fun e => e.field) = ["root"] := by
  constructor <;> decide

/-- Amended claim C7: when a crossValidate schema's base codec succeeds
and its validator returns a non-empty list of {field, message} pairs,
the outcome is a single validation failure at the surrounding context
whose message is the '; '-joined "field: message" rendering of the
pairs — per-field granularity is collapsed into one opaque message, not
exposed as one error entry per reported field. -/
theorem claim7_crossValidate_joins (base : Codec)
    (g : Value → Except JsThrow (List CrossError)) (v : Value)
    (c : List ContextEntry) (a : Value) (e : CrossError) (es : List CrossError)
    (hb : validate base v c = .ok (.ok a)) (hg : g a = .ok (e :: es)) :
    validate (.crossValidate base g) v c =
      .ok (.errs [⟨v, c, some (joinCrossErrors (e :: es))⟩]) := by
  simp only [validate, hb, hg]

/-- Witness for the amended claim C7, at the concrete two-pair
validator. -/
theorem claim7_witness :
    validate c7Codec (.obj [("password", .str "a"), ("confirmPassword", .str "b")])
        [⟨"", typeInfoOf c7Codec, .obj [("password", .str "a"), ("confirmPassword", .str "b")]⟩] =
      .ok (.errs [⟨.obj [("password", .str "a"), ("confirmPassword", .str "b")],
        [⟨"", typeInfoOf c7Codec, .obj [("password", .str "a"), ("confirmPassword", .str "b")]⟩],
        some "confirmPassword: Passwords do not match; confirmEmail: Emails do not match"⟩]) :=
  claim7_crossValidate_joins _ _ _ _
    (.obj [("password", .str "a"), ("confirmPassword", .str "b")])
    ⟨"confirmPassword", "Passwords do not match"⟩
    [⟨"confirmEmail", "Emails do not match"⟩] rfl rfl

/-- Claim C8: `decodeAndThrow` returns the decoded value on success;
on failure it throws the structured `IoTsValidationException`, whose
`getErrors()` is the formatted error list and whose `getResponse()` is
`{statusCode: 400, message: "Validation failed", error: "Bad Request",
errors}`. -/
theorem claim8_decodeAndThrow (v : Value) (c : Codec) :
    (∀ a, decode c v = .ok (.ok a) → decodeAndThrow v c = .ok (.ok a)) ∧
    (∀ es, decode c v = .ok (.errs es) →
      decodeAndThrow v c = .ok (.error (mkIoTsValidationException (formatErrors es))) ∧
      (mkIoTsValidationException (formatErrors es)).getErrors = formatErrors es ∧
      (mkIoTsValidationException (formatErrors es)).getResponse =
        ⟨400, "Validation failed", "Bad Request", formatErrors es⟩) := by
  refine ⟨fun a ha => ?_, fun es hes => ⟨?_, rfl, rfl⟩⟩
  · simp only [decodeAndThrow, ha]
  · simp only [decodeAndThrow, hes]

/-- Witness for claim C8: a number codec succeeding on `3` and failing
on a string. -/
theorem claim8_witness :
    decodeAndThrow (.num 3) numberC = .ok (.ok (.num 3)) ∧
    decodeAndThrow (.str "x") numberC =
      .ok (.error (mkIoTsValidationException (formatErrors
        [⟨.str "x", [⟨"", typeInfoOf numberC, .str "x"⟩], none⟩]))) :=
  ⟨(claim8_decodeAndThrow (.num 3) numberC).1 (.num 3) rfl,
    ((claim8_decodeAndThrow (.str "x") numberC).2
      [⟨.str "x", [⟨"", typeInfoOf numberC, .str "x"⟩], none⟩] rfl).1⟩

/-- Counterexample to claim C3: for a root-level array schema, the
invalid element at index 0 yields field "0" — the first retained
context key is rendered verbatim, not in bracket notation, so the
field path does not end in "[0]". -/
theorem claim3_counterexample :
    (formatErrors (errsOf (decode (.array numberC) (.arr [.str "x"])))).map
        (fun e => e.field) = ["0"] ∧
    List.isSuffixOf "[0]".toList "0".toList = false := by
  constructor <;> decide

/-- Amended claim C3: the `field` of a formatted error is the rendering
of the failure's context keys after dropping the root entry and every
empty key, where the FIRST retained key is written verbatim (even when
it is an array index) and every LATER non-negative-integer-string key
is rendered as `[index]` appended to the path so far (`.key`
otherwise); an empty rendering is replaced by "root". Consequently a
numeric index key in any non-initial position appends `[i]` to the
path, so an invalid array element nested under at least one object key
yields a path ending in `[i]`. -/
theorem claim3_field_path_rendering :
    (∀ context : List ContextEntry,
      getFieldPath context =
        renderPathSpec (((context.drop 1).map (fun e => e.key)).filter (fun k => k != ""))) ∧
    (∀ f : VFailure,
      failureField f = if getFieldPath f.context = "" then "root" else getFieldPath f.context) ∧
    (∀ (keys : List String) (k : String), keys ≠ [] → isArrayIndex k = true →
      renderPathSpec (keys ++ [k]) = renderPathSpec keys ++ "[" ++ k ++ "]") := by
  refine ⟨fun context => rfl, fun f => rfl, fun keys k hne hk => ?_⟩
  match keys with
  | [] => exact absurd rfl hne
  | k0 :: rest =>
    simp only [renderPathSpec, List.cons_append, List.foldl_append, List.foldl_cons,
      List.foldl_nil, hk, if_pos]

/-- Witness for the amended claim C3: appending index key "1" after
key "items" renders as bracket notation. -/
theorem claim3_witness :
    renderPathSpec (["items"] ++ ["1"]) = renderPathSpec ["items"] ++ "[" ++ "1" ++ "]" :=
  claim3_field_path_rendering.2.2 ["items"] "1" (by simp) (by decide)

/-- `dedupFrom` only depends on the membership set of `seen`. -/
theorem dedupFrom_congr (fs : List VFailure) :
    ∀ s1 s2 : List String, (∀ x, x ∈ s1 ↔ x ∈ s2) → dedupFrom s1 fs = dedupFrom s2 fs := by
  induction fs with
  | nil => intro s1 s2 _; rfl
  | cons f fs ih =>
    intro s1 s2 h
    simp only [dedupFrom]
    by_cases hf : failureField f ∈ s1
    · have h1 : s1.contains (failureField f) = true := by simp [hf]
      have h2 : s2.contains (failureField f) = true := by simp [(h _).mp hf]
      rw [h1, h2, if_pos rfl, if_pos rfl]
      exact ih s1 s2 h
    · have h1 : s1.contains (failureField f) = false := by simp [hf]
      have hnf : failureField f ∉ s2 := fun c => hf ((h _).mpr c)
      have h2 : s2.contains (failureField f) = false := by simp [hnf]
      rw [h1, h2]
      simp only [Bool.false_eq_true, if_false]
      refine congrArg _ (ih _ _ fun x => ?_)
      simp [h x]

/-- The `formatErrors` fold, started from any accumulator, appends the
first-seen deduplication of the remaining failures (skipping fields
already present in the accumulator). -/
theorem formatErrors_go (fs : List VFailure) :
    ∀ acc : List ValidationError,
      fs.foldl
        (fun acc f =>
          if acc.any (fun x => x.field == failureField f) then acc
          else acc ++ [mkValidationError f])
        acc
      = acc ++ dedupFrom (acc.map (fun x => x.field)) fs := by
  induction fs with
  | nil => intro acc; simp [dedupFrom]
  | cons f fs ih =>
    intro acc
    simp only [List.foldl_cons, dedupFrom]
    by_cases h : failureField f ∈ acc.map (fun x => x.field)
    · have hb : acc.any (fun x => x.field == failureField f) = true := by
        rw [List.any_eq_true]
        rcases List.mem_map.mp h with ⟨x, hx, hfx⟩
        exact ⟨x, hx, by simp [hfx]⟩
      have hc : (acc.map (fun x => x.field)).contains (failureField f) = true := by
        simp [h]
      rw [hb, hc, if_pos rfl, if_pos rfl]
      exact ih acc
    · have hb : acc.any (fun x => x.field == failureField f) = false := by
        rw [Bool.eq_false_iff]
        rw [ne_eq, List.any_eq_true]
        rintro ⟨x, hx, he⟩
        exact h (List.mem_map.mpr ⟨x, hx, by simpa using he⟩)
      have hc : (acc.map (fun x => x.field)).contains (failureField f) = false := by
        simp [h]
      rw [hb, hc]
      simp only [Bool.false_eq_true, if_false]
      rw [ih]
      have hmapeq : (acc ++ [mkValidationError f]).map (fun x => x.field) =
          (acc.map (fun x => x.field)) ++ [failureField f] := by
        simp [mkValidationError]
      rw [hmapeq, dedupFrom_congr fs ((acc.map (fun x => x.field)) ++ [failureField f])
        (failureField f :: acc.map (fun x => x.field)) (by intro x; simp [or_comm])]
      simp

/-- `formatErrors` equals the specification-side first-seen-wins
deduplication. -/
theorem formatErrors_eq_spec (errors : List VFailure) :
    formatErrors errors = formatErrorsSpec errors := by
  simpa [formatErrors, formatErrorsSpec] using formatErrors_go errors []

/-- First-seen deduplication yields pairwise-distinct fields, none of
them among the already-seen ones. -/
theorem dedupFrom_pairwise (fs : List VFailure) :
    ∀ seen : List String,
      ((dedupFrom seen fs).Pairwise (fun a b => a.field ≠ b.field)) ∧
      (∀ e ∈ dedupFrom seen fs, e.field ∉ seen) := by
  induction fs with
  | nil => intro seen; simp [dedupFrom]
  | cons f fs ih =>
    intro seen
    simp only [dedupFrom]
    by_cases hf : failureField f ∈ seen
    · have h1 : seen.contains (failureField f) = true := by simp [hf]
      rw [h1, if_pos rfl]; exact ih seen
    · have h1 : seen.contains (failureField f) = false := by simp [hf]
      rw [h1]
      simp only [Bool.false_eq_true, if_false]
      obtain ⟨hp, hmem⟩ := ih (failureField f :: seen)
      refine ⟨List.Pairwise.cons ?_ hp, ?_⟩
      · intro e he heq
        have hne := hmem e he
        have : (mkValidationError f).field = failureField f := rfl
        rw [this] at heq
        exact hne (heq ▸ List.mem_cons_self _ _)
      · intro e he
        rcases List.mem_cons.mp he with rfl | he'
        · exact hf
        · exact fun c => hmem e he' (List.mem_cons_of_mem _ c)

/-- Claim C4: the output of `formatErrors` is exactly the first-seen
deduplication by field path of the per-failure errors, in first-seen
order, and in particular contains at most one ValidationError per
unique field path. -/
theorem claim4_formatErrors_dedup (errors : List VFailure) :
    formatErrors errors = formatErrorsSpec errors ∧
    (formatErrors errors).Pairwise (fun a b => a.field ≠ b.field) := by
  refine ⟨formatErrors_eq_spec errors, ?_⟩
  rw [formatErrors_eq_spec errors]
  exact (dedupFrom_pairwise errors []).1

/-- An atom-class character is not a dot. -/
theorem isAtomChar_ne_dot {c : Char} (h : isAtomChar c = true) : c ≠ '.' := by
  intro hc
  subst hc
  have : isAtomChar '.' = false := by decide
  rw [this] at h
  cases h

/-- A local part accepted by the `X(?:Y*X)?` pattern is nonempty and
neither starts nor ends with a dot. -/
theorem localMatches_endpoints (l : List Char) (h : localMatches l = true) :
    l ≠ [] ∧ l.head? ≠ some '.' ∧ l.getLast? ≠ some '.' := by
  match l with
  | [] => simp [localMatches] at h
  | c :: rest =>
    have hc : isAtomChar c = true := by
      cases hg : rest.getLast? <;> simp [localMatches, hg] at h
      · exact h
      · exact h.1.1
    refine ⟨by simp, ?_, ?_⟩
    · simp only [List.head?_cons, ne_eq, Option.some.injEq]
      exact fun hd => isAtomChar_ne_dot hc hd
    · match rest with
      | [] =>
        simp only [List.getLast?_singleton, ne_eq, Option.some.injEq]
        exact fun hd => isAtomChar_ne_dot hc hd
      | d :: rest' =>
        cases hg : (d :: rest').getLast? with
        | none => simp at hg
        | some e =>
          have he : isAtomChar e = true := by
            simp [localMatches, hg] at h
            exact h.1.2
          rw [List.getLast?_cons_cons, hg]
          simp only [ne_eq, Option.some.injEq]
          exact fun hd => isAtomChar_ne_dot he hd

/-- The acceptance condition of `isValidEmail`, decomposed as the claim
states it: overall length bound, split at the first `@`, local and
domain length bounds, and the regex match. -/
theorem isValidEmail_iff (s : String) :
    isValidEmail s = true ↔
      (s.length ≤ 254 ∧ ∃ loc dom, splitAtFirstAtSign s.toList = some (loc, dom) ∧
        loc.length ≤ 64 ∧ dom.length ≤ 255 ∧ emailRegexTest s = true) := by
  unfold isValidEmail
  by_cases h254 : s.length > 254
  · rw [if_pos h254]
    constructor
    · intro h; cases h
    · rintro ⟨h, -⟩; omega
  · rw [if_neg h254]
    cases hsp : splitAtFirstAtSign s.toList with
    | none => simp [hsp]
    | some p =>
      obtain ⟨loc, dom⟩ := p
      show (if loc.length > 64 then false
            else if dom.length > 255 then false else emailRegexTest s) = true ↔ _
      by_cases h64 : loc.length > 64
      · rw [if_pos h64]
        constructor
        · intro h; cases h
        · rintro ⟨-, loc', dom', hsp', h64', -⟩
          simp only [Option.some.injEq, Prod.mk.injEq] at hsp'
          obtain ⟨h1, h2⟩ := hsp'
          subst h1
          omega
      · rw [if_neg h64]
        by_cases h255 : dom.length > 255
        · rw [if_pos h255]
          constructor
          · intro h; cases h
          · rintro ⟨-, loc', dom', hsp', -, h255', -⟩
            simp only [Option.some.injEq, Prod.mk.injEq] at hsp'
            obtain ⟨h1, h2⟩ := hsp'
            subst h2
            omega
        · rw [if_neg h255]
          constructor
          · intro h
            exact ⟨by omega, loc, dom, rfl, by omega, by omega, h⟩
          · rintro ⟨-, loc', dom', hsp', -, -, h⟩
            exact h

/-- Claim C9: `Email.decode` accepts a string `s` iff `s` is at most
254 characters, splitting at the first `@` gives a local part of at
most 64 and a domain of at most 255 characters, and `s` matches the
practical RFC-5322 subset pattern — which in particular disallows
consecutive dots anywhere and leading or trailing dots in the local
part; `Email.encode` is the identity on the underlying string. -/
theorem claim9_email_decode (s : String) :
    (decode EmailC (.str s) = .ok (.ok (.str s)) ↔
      (s.length ≤ 254 ∧ ∃ loc dom, splitAtFirstAtSign s.toList = some (loc, dom) ∧
        loc.length ≤ 64 ∧ dom.length ≤ 255 ∧ emailRegexTest s = true)) ∧
    (∀ loc dom, splitAtFirstAtSign s.toList = some (loc, dom) → emailRegexTest s = true →
      hasDoubleDot s.toList = false ∧ loc ≠ [] ∧ loc.head? ≠ some '.' ∧
        loc.getLast? ≠ some '.') ∧
    encodeC EmailC (.str s) = .str s := by
  refine ⟨?_, ?_, rfl⟩
  · rw [← isValidEmail_iff]
    show (if isValidEmail s = true
          then (Except.ok (VResult.ok (Value.str s)) : Except JsThrow VResult)
          else .ok (.errs [⟨.str s, [⟨"", typeInfoOf EmailC, .str s⟩], none⟩]))
        = .ok (.ok (.str s)) ↔ isValidEmail s = true
    cases hv : isValidEmail s <;> simp [hv]
  · intro loc dom hsp hre
    unfold emailRegexTest at hre
    simp only [hsp, Bool.and_eq_true, Bool.not_eq_eq_eq_not, Bool.not_true] at hre
    obtain ⟨hdd, hrest⟩ := hre
    obtain ⟨⟨-, hlocal⟩, -⟩ := hrest
    obtain ⟨h1, h2, h3⟩ := localMatches_endpoints loc hlocal
    exact ⟨by simpa using hdd, h1, h2, h3⟩

/-- Witness for claim C9, applied at "user@example.com". -/
theorem claim9_witness :
    hasDoubleDot "user@example.com".toList = false ∧
    "user".toList ≠ [] ∧ "user".toList.head? ≠ some '.' ∧
    "user".toList.getLast? ≠ some '.' :=
  (claim9_email_decode "user@example.com").2.1 "user".toList "example.com".toList
    (by decide) (by decide)


/-- A single leaf failure at the passed context extends it. -/
theorem leaf_ctx_extends {v : Value} {c : List ContextEntry} {m : Option String}
    {es : List VFailure}
    (h : (Except.ok (VResult.errs [⟨v, c, m⟩]) : Except JsThrow VResult) =
      .ok (.errs es)) :
    ∀ f ∈ es, ∃ tail, f.context = c ++ tail := by
  intro f hf
  simp only [Except.ok.injEq, VResult.errs.injEq] at h
  subst h
  simp only [List.mem_singleton] at hf
  subst hf
  exact ⟨[], by simp⟩

/-- If every per-element result of the array loop satisfies a property
on each of its failures, so does every collected failure. -/
theorem runItems_errs (f : Value → Nat → Except JsThrow VResult) (P : VFailure → Prop)
    (hf : ∀ v i es, f v i = .ok (.errs es) → ∀ fl ∈ es, P fl) :
    ∀ (elems : List Value) (i : Nat) (es : List VFailure) (vs : List Value),
      runItems f elems i = .ok (es, vs) → ∀ fl ∈ es, P fl := by
  intro elems
  induction elems with
  | nil =>
    intro i es vs h fl hfl
    simp only [runItems, Except.ok.injEq, Prod.mk.injEq] at h
    obtain ⟨h1, -⟩ := h
    subst h1
    simp at hfl
  | cons v vs' ih =>
    intro i es outs h fl hfl
    simp only [runItems] at h
    cases hv : f v i with
    | error th => rw [hv] at h; cases h
    | ok vr =>
      rw [hv] at h
      cases hrest : runItems f vs' (i + 1) with
      | error th => rw [hrest] at h; cases h
      | ok p =>
        obtain ⟨es', outs'⟩ := p
        rw [hrest] at h
        cases vr with
        | errs fes =>
          simp only [Except.ok.injEq, Prod.mk.injEq] at h
          obtain ⟨h1, -⟩ := h
          subst h1
          rcases List.mem_append.mp hfl with hl | hr
          · exact hf v i fes hv fl hl
          · exact ih (i + 1) es' outs' hrest fl hr
        | ok a =>
          simp only [Except.ok.injEq, Prod.mk.injEq] at h
          obtain ⟨h1, -⟩ := h
          subst h1
          exact ih (i + 1) es' outs' hrest fl hfl

mutual
/-- Every failure produced by `validate` carries a context that extends
the context it was called with. -/
theorem validate_ctx_extends (S : Codec) (v : Value) (c : List ContextEntry)
    (es : List VFailure) (h : validate S v c = .ok (.errs es)) :
    ∀ f ∈ es, ∃ tail, f.context = c ++ tail := by
  cases S with
  | prim n check =>
    simp only [validate] at h
    cases hc : check v
    · simp only [hc, Bool.false_eq_true, if_false] at h
      exact leaf_ctx_extends h
    · simp [hc] at h
  | brand base pred n =>
    simp only [validate] at h
    cases hb : validate base v c with
    | error th => rw [hb] at h; cases h
    | ok vr =>
      rw [hb] at h
      cases vr with
      | errs es' =>
        intro f hf
        simp only [Except.ok.injEq, VResult.errs.injEq] at h
        subst h
        exact validate_ctx_extends base v c es' hb f hf
      | ok a =>
        cases hp : pred a
        · simp only [hp, Bool.false_eq_true, if_false] at h
          exact leaf_ctx_extends h
        · simp [hp] at h
  | record fs =>
    cases v with
    | obj kvs =>
      simp only [validate] at h
      cases hvf : validateFields fs kvs c with
      | error th => rw [hvf] at h; cases h
      | ok p =>
        obtain ⟨es', ups⟩ := p
        rw [hvf] at h
        cases hemp : es'.isEmpty
        · simp only [hemp, Bool.false_eq_true, if_false, Except.ok.injEq,
            VResult.errs.injEq] at h
          subst h
          intro f hf
          obtain ⟨k', S', ak, tail, -, hctx⟩ :=
            validateFields_ctx_extends fs kvs c es' ups hvf f hf
          exact ⟨⟨k', typeInfoOf S', ak⟩ :: tail, hctx⟩
        · simp [hemp] at h
    | null => exact leaf_ctx_extends (by simpa only [validate] using h)
    | undef => exact leaf_ctx_extends (by simpa only [validate] using h)
    | bool b => exact leaf_ctx_extends (by simpa only [validate] using h)
    | num nn => exact leaf_ctx_extends (by simpa only [validate] using h)
    | str s => exact leaf_ctx_extends (by simpa only [validate] using h)
    | arr elems => exact leaf_ctx_extends (by simpa only [validate] using h)
  | array item =>
    cases v with
    | arr elems =>
      simp only [validate] at h
      cases hr : runItems
          (fun e i => validate item e (appendCtx c (toString i) (typeInfoOf item) e))
          elems 0 with
      | error th => rw [hr] at h; cases h
      | ok p =>
        obtain ⟨es', vs⟩ := p
        rw [hr] at h
        cases hemp : es'.isEmpty
        · simp only [hemp, Bool.false_eq_true, if_false, Except.ok.injEq,
            VResult.errs.injEq] at h
          subst h
          intro f hf
          refine runItems_errs _ (fun fl => ∃ tail, fl.context = c ++ tail)
            (fun e i es'' he fl hfl => ?_) elems 0 es' vs hr f hf
          obtain ⟨tail, htail⟩ := validate_ctx_extends item e
            (appendCtx c (toString i) (typeInfoOf item) e) es'' he fl hfl
          exact ⟨⟨toString i, typeInfoOf item, e⟩ :: tail, by
            rw [htail]; simp [appendCtx]⟩
        · simp [hemp] at h
    | null => exact leaf_ctx_extends (by simpa only [validate] using h)
    | undef => exact leaf_ctx_extends (by simpa only [validate] using h)
    | bool b => exact leaf_ctx_extends (by simpa only [validate] using h)
    | num nn => exact leaf_ctx_extends (by simpa only [validate] using h)
    | str s => exact leaf_ctx_extends (by simpa only [validate] using h)
    | obj kvs => exact leaf_ctx_extends (by simpa only [validate] using h)
  | withDefault base d =>
    cases v with
    | undef => simp only [validate] at h; cases h
    | null => exact validate_ctx_extends base .null c es h
    | bool b => exact validate_ctx_extends base (.bool b) c es h
    | num nn => exact validate_ctx_extends base (.num nn) c es h
    | str s => exact validate_ctx_extends base (.str s) c es h
    | arr elems => exact validate_ctx_extends base (.arr elems) c es h
    | obj kvs => exact validate_ctx_extends base (.obj kvs) c es h
  | withMessage base m =>
    exact validate_ctx_extends base v c es h
  | crossValidate base g =>
    simp only [validate] at h
    cases hb : validate base v c with
    | error th => rw [hb] at h; cases h
    | ok vr =>
      rw [hb] at h
      cases vr with
      | errs es' =>
        intro f hf
        simp only [Except.ok.injEq, VResult.errs.injEq] at h
        subst h
        exact validate_ctx_extends base v c es' hb f hf
      | ok a =>
        cases hg : g a with
        | error th => simp only [hg] at h; cases h
        | ok l =>
          cases l with
          | nil => simp only [hg] at h; cases h
          | cons e l' =>
            simp only [hg] at h
            exact leaf_ctx_extends h
  | transform base m =>
    simp only [validate] at h
    cases hb : validate base v c with
    | error th => rw [hb] at h; cases h
    | ok vr =>
      rw [hb] at h
      cases vr with
      | errs es' =>
        intro f hf
        simp only [Except.ok.injEq, VResult.errs.injEq] at h
        subst h
        exact validate_ctx_extends base v c es' hb f hf
      | ok a =>
        cases hm : m a with
        | ok b => simp only [hm] at h; cases h
        | error th =>
          simp only [hm] at h
          exact leaf_ctx_extends h

termination_by sizeOf S

/-- Every failure produced by the record field loop sits below one of
the declared fields: its context is the caller's context followed by
that field's entry. -/
theorem validateFields_ctx_extends (fs : Fields) (kvs : List (String × Value))
    (c : List ContextEntry) (es : List VFailure) (ups : List (String × Value))
    (h : validateFields fs kvs c = .ok (es, ups)) :
    ∀ f ∈ es, ∃ k' S' ak tail, (k', S') ∈ fieldsList fs ∧
      f.context = c ++ ⟨k', typeInfoOf S', ak⟩ :: tail := by
  cases fs with
  | nil =>
    intro f hf
    simp only [validateFields, Except.ok.injEq, Prod.mk.injEq] at h
    obtain ⟨h1, -⟩ := h
    subst h1
    simp at hf
  | cons k s rest =>
    intro f hf
    simp only [validateFields] at h
    cases hv : validate s (jsLookup k kvs)
        (appendCtx c k (typeInfoOf s) (jsLookup k kvs)) with
    | error th => rw [hv] at h; cases h
    | ok r =>
      rw [hv] at h
      cases hrest : validateFields rest kvs c with
      | error th => rw [hrest] at h; cases h
      | ok p =>
        obtain ⟨es', ups'⟩ := p
        rw [hrest] at h
        cases r with
        | errs fes =>
          simp only [Except.ok.injEq, Prod.mk.injEq] at h
          obtain ⟨h1, -⟩ := h
          subst h1
          rcases List.mem_append.mp hf with hl | hr'
          · obtain ⟨tail, htail⟩ := validate_ctx_extends s (jsLookup k kvs)
              (appendCtx c k (typeInfoOf s) (jsLookup k kvs)) fes hv f hl
            refine ⟨k, s, jsLookup k kvs, tail, by simp [fieldsList], ?_⟩
            rw [htail]; simp [appendCtx]
          · obtain ⟨k', S', ak, tail, hmem, hctx⟩ :=
              validateFields_ctx_extends rest kvs c es' ups' hrest f hr'
            exact ⟨k', S', ak, tail, by simp [fieldsList, hmem], hctx⟩
        | ok vk =>
          simp only [Except.ok.injEq, Prod.mk.injEq] at h
          obtain ⟨h1, -⟩ := h
          subst h1
          obtain ⟨k', S', ak, tail, hmem, hctx⟩ :=
            validateFields_ctx_extends rest kvs c es' ups' hrest f hf
          exact ⟨k', S', ak, tail, by simp [fieldsList, hmem], hctx⟩
termination_by sizeOf fs
end

/-! ## Field-path disjointness (used for claim C2) -/

/-- The characters a rendered path appends after its first key: either
nothing, or a block starting with '.' or '['. -/
theorem renderPath_toList (ks : List String) :
    ∀ p : String, ∃ rest : List Char,
      (ks.foldl
        (fun path k =>
          if isArrayIndex k then path ++ "[" ++ k ++ "]" else path ++ "." ++ k)
        p).toList = p.toList ++ rest ∧
      (rest = [] ∨ rest.head? = some '.' ∨ rest.head? = some '[') := by
  induction ks with
  | nil => intro p; exact ⟨[], by simp, Or.inl rfl⟩
  | cons k ks ih =>
    intro p
    simp only [List.foldl_cons]
    by_cases hk : isArrayIndex k = true
    · rw [if_pos hk]
      obtain ⟨rest', hr, -⟩ := ih (p ++ "[" ++ k ++ "]")
      refine ⟨'[' :: (k.toList ++ ']' :: rest'), ?_, Or.inr (Or.inr rfl)⟩
      rw [hr]
      simp [String.toList, String.data_append]
    · rw [if_neg hk]
      obtain ⟨rest', hr, -⟩ := ih (p ++ "." ++ k)
      refine ⟨'.' :: (k.toList ++ rest'), ?_, Or.inr (Or.inl rfl)⟩
      rw [hr]
      simp [String.toList, String.data_append]

/-- Strings with equal character lists are equal. -/
theorem toList_inj {a b : String} (h : a.toList = b.toList) : a = b := by
  cases a; cases b; exact congrArg String.mk h

/-- A path rendered from a nonempty first key is itself nonempty. -/
theorem renderPathSpec_ne_empty (k0 : String) (ks : List String) (h0 : k0 ≠ "") :
    renderPathSpec (k0 :: ks) ≠ "" := by
  obtain ⟨rest, hr, -⟩ := renderPath_toList ks k0
  intro hc
  have h2 : (renderPathSpec (k0 :: ks)).toList = k0.toList ++ rest := hr
  rw [hc] at h2
  rcases List.append_eq_nil.mp h2.symm with ⟨h4, -⟩
  exact h0 (toList_inj (by rw [h4]; rfl))

/-- A path rendered below a sibling key `k'` can never equal a target
key `k` that differs from `k'` and contains neither '.' nor '['. -/
theorem sibling_path_ne (k k' : String) (hne : k' ≠ k)
    (hdot : '.' ∉ k.toList) (hbr : '[' ∉ k.toList) (ks : List String) :
    renderPathSpec (k' :: ks) ≠ k := by
  obtain ⟨rest, hr, hhead⟩ := renderPath_toList ks k'
  intro hc
  have h2 : (renderPathSpec (k' :: ks)).toList = k'.toList ++ rest := hr
  rw [hc] at h2
  have hdata : k'.toList ++ rest = k.toList := h2.symm
  rcases hhead with hnil | hd | hb
  · subst hnil
    simp only [List.append_nil] at hdata
    exact hne (toList_inj hdata)
  · rcases rest with _ | ⟨c0, rest'⟩
    · simp at hd
    · simp only [List.head?_cons, Option.some.injEq] at hd
      subst hd
      exact hdot (hdata ▸ List.mem_append.mpr (Or.inr (List.mem_cons_self _ _)))
  · rcases rest with _ | ⟨c0, rest'⟩
    · simp at hb
    · simp only [List.head?_cons, Option.some.injEq] at hb
      subst hb
      exact hbr (hdata ▸ List.mem_append.mpr (Or.inr (List.mem_cons_self _ _)))

/-! ## Per-field failure lists (used for claim C2) -/

/-- The concatenated failure lists produced by the record field loop,
field by field (support definition for the claim C2 proof). -/
def fieldsFailures (fs : Fields) (kvs : List (String × Value)) (c : List ContextEntry) :
    List VFailure :=
  match fs with
  | .nil => []
  | .cons k s rest =>
    (match validate s (jsLookup k kvs) (appendCtx c k (typeInfoOf s) (jsLookup k kvs)) with
     | .ok (.errs l) => l
     | _ => []) ++ fieldsFailures rest kvs c

/-- When the field loop returns without throwing, its failure list is
exactly the per-field concatenation. -/
theorem validateFields_failures (fs : Fields) (kvs : List (String × Value))
    (c : List ContextEntry) :
    ∀ es ups, validateFields fs kvs c = .ok (es, ups) → es = fieldsFailures fs kvs c := by
  cases fs with
  | nil =>
    intro es ups h
    simp only [validateFields, Except.ok.injEq, Prod.mk.injEq] at h
    exact h.1.symm
  | cons k s rest =>
    intro es ups h
    simp only [validateFields] at h
    cases hv : validate s (jsLookup k kvs)
        (appendCtx c k (typeInfoOf s) (jsLookup k kvs)) with
    | error th => rw [hv] at h; cases h
    | ok r =>
      rw [hv] at h
      cases hrest : validateFields rest kvs c with
      | error th => rw [hrest] at h; cases h
      | ok p =>
        obtain ⟨es', ups'⟩ := p
        rw [hrest] at h
        cases r with
        | errs fes =>
          simp only [Except.ok.injEq, Prod.mk.injEq] at h
          obtain ⟨h1, -⟩ := h
          subst h1
          simp only [fieldsFailures, hv]
          rw [validateFields_failures rest kvs c es' ups' hrest]
        | ok vk =>
          simp only [Except.ok.injEq, Prod.mk.injEq] at h
          obtain ⟨h1, -⟩ := h
          subst h1
          simp only [fieldsFailures, hv, List.nil_append]
          exact validateFields_failures rest kvs c es' ups' hrest
termination_by sizeOf fs

/-- A declared field's key is among the record's keys. -/
theorem fieldsList_key_mem (fs : Fields) (k : String) (S : Codec)
    (h : (k, S) ∈ fieldsList fs) : k ∈ fieldsKeys fs := by
  cases fs with
  | nil => simp [fieldsList] at h
  | cons k' S' rest =>
    rcases (by simpa [fieldsList] using h : k = k' ∧ S = S' ∨ (k, S) ∈ fieldsList rest) with
      ⟨h1, -⟩ | hmem
    · simp [fieldsKeys, h1]
    · simp [fieldsKeys, fieldsList_key_mem rest k S hmem]
termination_by sizeOf fs

/-- The field path of a failure whose context is a root entry followed
by a field entry and further entries. -/
theorem failureField_cons (rootE : ContextEntry) (k' : String) (ti : TypeInfo)
    (a : Value) (tail : List ContextEntry) (v : Value) (m : Option String)
    (hk : k' ≠ "") :
    failureField ⟨v, rootE :: ⟨k', ti, a⟩ :: tail, m⟩ =
      renderPathSpec (k' :: (tail.map (fun e => e.key)).filter (fun x => x != "")) := by
  have h1 : ((((rootE :: (⟨k', ti, a⟩ : ContextEntry) :: tail).drop 1).map
        (fun e => e.key)).filter (fun x => x != ""))
      = k' :: (tail.map (fun e => e.key)).filter (fun x => x != "") := by
    simp [List.filter_cons, hk]
  have h0 : getFieldPath (rootE :: ⟨k', ti, a⟩ :: tail) =
      renderPathSpec (k' :: (tail.map (fun e => e.key)).filter (fun x => x != "")) := by
    show renderPathSpec ((((rootE :: (⟨k', ti, a⟩ : ContextEntry) :: tail).drop 1).map
        (fun e => e.key)).filter (fun x => x != "")) = _
    rw [h1]
  show (if getFieldPath (rootE :: ⟨k', ti, a⟩ :: tail) = "" then "root"
        else getFieldPath (rootE :: ⟨k', ti, a⟩ :: tail)) = _
  rw [h0, if_neg (renderPathSpec_ne_empty _ _ hk)]

/-- The field path of a leaf failure directly below a root entry is the
field key itself. -/
theorem failureField_single (rootE : ContextEntry) (k : String) (ti : TypeInfo)
    (a v : Value) (m : Option String) (hk : k ≠ "") :
    failureField ⟨v, [rootE, ⟨k, ti, a⟩], m⟩ = k :=
  failureField_cons rootE k ti a [] v m hk

/-- The failures a single non-target field contributes never format to
the target field. -/
theorem fieldHead_filter_nil (k k'' : String) (S'' : Codec)
    (kvs : List (String × Value)) (rootE : ContextEntry)
    (hne : k'' ≠ "") (hnek : k'' ≠ k)
    (hdot : '.' ∉ k.toList) (hbr : '[' ∉ k.toList) :
    ((match validate S'' (jsLookup k'' kvs)
        (appendCtx [rootE] k'' (typeInfoOf S'') (jsLookup k'' kvs)) with
      | .ok (.errs l) => l
      | _ => []) : List VFailure).filter (fun f => failureField f == k) = [] := by
  cases hv : validate S'' (jsLookup k'' kvs)
      (appendCtx [rootE] k'' (typeInfoOf S'') (jsLookup k'' kvs)) with
  | error th => simp
  | ok r =>
    cases r with
    | ok a => simp
    | errs l =>
      simp only
      rw [List.filter_eq_nil_iff]
      intro f hf
      obtain ⟨tail, htail⟩ := validate_ctx_extends S'' (jsLookup k'' kvs)
        (appendCtx [rootE] k'' (typeInfoOf S'') (jsLookup k'' kvs)) l hv f hf
      have hctx : f.context =
          rootE :: ⟨k'', typeInfoOf S'', jsLookup k'' kvs⟩ :: tail := by
        rw [htail]; simp [appendCtx]
      have hff : failureField f =
          renderPathSpec (k'' :: (tail.map (fun e => e.key)).filter (fun x => x != "")) := by
        obtain ⟨fv, fc, fm⟩ := f
        simp only at hctx
        subst hctx
        exact failureField_cons rootE k'' (typeInfoOf S'') (jsLookup k'' kvs) tail fv fm hne
      simp only [beq_iff_eq, hff]
      exact sibling_path_ne k k'' hnek hdot hbr _

/-- Failures of fields whose keys all differ from the target key never
format to the target field. -/
theorem fieldsFailures_filter_nil (k : String) (kvs : List (String × Value))
    (rootE : ContextEntry)
    (hdot : '.' ∉ k.toList) (hbr : '[' ∉ k.toList) :
    ∀ fs : Fields, (∀ k'' ∈ fieldsKeys fs, k'' ≠ "" ∧ k'' ≠ k) →
      (fieldsFailures fs kvs [rootE]).filter (fun f => failureField f == k) = [] := by
  intro fs
  cases fs with
  | nil => intro _; rfl
  | cons k'' S'' rest =>
    intro hks
    obtain ⟨hne, hnek⟩ := hks k'' (by simp [fieldsKeys])
    simp only [fieldsFailures, List.filter_append]
    rw [fieldsFailures_filter_nil k kvs rootE hdot hbr rest
      (fun x hx => hks x (by simp [fieldsKeys, hx])), List.append_nil]
    exact fieldHead_filter_nil k k'' S'' kvs rootE hne hnek hdot hbr
termination_by fs => sizeOf fs

/-- Among a record's fields, only the target field `k` (a leaf-failing
codec receiving null/undefined) contributes a failure formatting to
field `k`, and it contributes exactly one. -/
theorem fieldsFailures_filter_eq
    (k : String) (S : Codec) (kvs : List (String × Value)) (rootE : ContextEntry)
    (hkne : k ≠ "") (hdot : '.' ∉ k.toList) (hbr : '[' ∉ k.toList)
    (hleafU : ∀ c, validate S .undef c = .ok (.errs [⟨.undef, c, none⟩]))
    (hleafN : ∀ c, validate S .null c = .ok (.errs [⟨.null, c, none⟩]))
    (hak : jsLookup k kvs = .undef ∨ jsLookup k kvs = .null) :
    ∀ fs : Fields, (k, S) ∈ fieldsList fs → (fieldsKeys fs).Nodup →
      (∀ k' ∈ fieldsKeys fs, k' ≠ "") →
      (fieldsFailures fs kvs [rootE]).filter (fun f => failureField f == k) =
        [⟨jsLookup k kvs, [rootE, ⟨k, typeInfoOf S, jsLookup k kvs⟩], none⟩] := by
  intro fs
  cases fs with
  | nil => intro hmem _ _; simp [fieldsList] at hmem
  | cons k' S' rest =>
    intro hmem hnodup hkeys
    have hnodup' : k' ∉ fieldsKeys rest ∧ (fieldsKeys rest).Nodup := by
      simpa [fieldsKeys, List.nodup_cons] using hnodup
    simp only [fieldsFailures, List.filter_append]
    rcases (by simpa [fieldsList] using hmem :
        (k = k' ∧ S = S') ∨ (k, S) ∈ fieldsList rest) with ⟨hk1, hk2⟩ | hmem'
    · subst hk1
      subst hk2
      -- the head field is the target: its contribution is the single leaf
      have hrest0 : (fieldsFailures rest kvs [rootE]).filter
          (fun f => failureField f == k) = [] := by
        have hsub : ∀ k'' ∈ fieldsKeys rest, k'' ≠ "" ∧ k'' ≠ k := by
          intro k'' hk''
          refine ⟨hkeys k'' (by simp [fieldsKeys, hk'']), ?_⟩
          intro hc; exact hnodup'.1 (hc ▸ hk'')
        exact fieldsFailures_filter_nil k kvs rootE hdot hbr rest hsub
      rw [hrest0, List.append_nil]
      have hleaf : validate S (jsLookup k kvs)
          (appendCtx [rootE] k (typeInfoOf S) (jsLookup k kvs)) =
          .ok (.errs [⟨jsLookup k kvs,
            appendCtx [rootE] k (typeInfoOf S) (jsLookup k kvs), none⟩]) := by
        rcases hak with hu | hn
        · rw [hu]; exact hleafU _
        · rw [hn]; exact hleafN _
      rw [hleaf]
      simp only [List.filter_cons, List.filter_nil]
      have hctx : appendCtx [rootE] k (typeInfoOf S) (jsLookup k kvs) =
          [rootE, ⟨k, typeInfoOf S, jsLookup k kvs⟩] := by simp [appendCtx]
      rw [hctx]
      have hff : failureField ⟨jsLookup k kvs,
          [rootE, ⟨k, typeInfoOf S, jsLookup k kvs⟩], none⟩ = k :=
        failureField_single rootE k (typeInfoOf S) (jsLookup k kvs) (jsLookup k kvs)
          none hkne
      simp [hff]
    · -- the target sits in the remaining fields; the head contributes nothing
      have hk'ne : k' ≠ k := by
        intro hc
        exact hnodup'.1 (hc ▸ fieldsList_key_mem rest k S hmem')
      rw [fieldHead_filter_nil k k' S' kvs rootE
        (hkeys k' (by simp [fieldsKeys])) hk'ne hdot hbr]
      rw [List.nil_append]
      exact fieldsFailures_filter_eq k S kvs rootE hkne hdot hbr hleafU hleafN hak
        rest hmem' hnodup'.2 (fun x hx => hkeys x (by simp [fieldsKeys, hx]))
termination_by fs => sizeOf fs

/-- A field already seen never reappears in the deduplicated output. -/
theorem dedupFrom_filter_mem (fld : String) (es : List VFailure) (seen : List String)
    (hmem : fld ∈ seen) :
    (dedupFrom seen es).filter (fun e => e.field == fld) = [] := by
  rw [List.filter_eq_nil_iff]
  intro e he
  have hnot := (dedupFrom_pairwise es seen).2 e he
  simp only [beq_iff_eq]
  intro hc
  exact hnot (hc ▸ hmem)

/-- The deduplicated output contains, for a field not yet seen, exactly
the formatting of the FIRST raw failure with that field, if any. -/
theorem dedupFrom_filter_first (fld : String) :
    ∀ (es : List VFailure) (seen : List String), fld ∉ seen →
      (dedupFrom seen es).filter (fun e => e.field == fld) =
        (match es.filter (fun f => failureField f == fld) with
         | [] => ([] : List ValidationError)
         | f :: _ => [mkValidationError f]) := by
  intro es
  induction es with
  | nil => intro seen _; rfl
  | cons f es ih =>
    intro seen hnin
    simp only [dedupFrom]
    by_cases hin : failureField f ∈ seen
    · have h1 : seen.contains (failureField f) = true := by simp [hin]
      rw [h1, if_pos rfl]
      have hne : (failureField f == fld) = false := by
        simp only [beq_eq_false_iff_ne, ne_eq]
        intro hc; exact hnin (hc ▸ hin)
      rw [List.filter_cons, hne]
      simp only [Bool.false_eq_true, if_false]
      exact ih seen hnin
    · have h1 : seen.contains (failureField f) = false := by simp [hin]
      rw [h1]
      simp only [Bool.false_eq_true, if_false]
      by_cases hf : failureField f = fld
      · have hfield : ((mkValidationError f).field == fld) = true := by
          simp [mkValidationError, hf]
        rw [List.filter_cons, hfield]
        simp only [if_true]
        have hrest : (dedupFrom (failureField f :: seen) es).filter
            (fun e => e.field == fld) = [] :=
          dedupFrom_filter_mem fld es _ (by simp [hf])
        rw [hrest]
        have hpred : (failureField f == fld) = true := by simp [hf]
        rw [List.filter_cons, hpred]
        simp
      · have hne : (failureField f == fld) = false := by simp [hf]
        have hfield : ((mkValidationError f).field == fld) = false := hne
        rw [List.filter_cons, hfield]
        simp only [Bool.false_eq_true, if_false]
        have hrhs : List.filter (fun f => failureField f == fld) (f :: es) =
            List.filter (fun f => failureField f == fld) es := by
          rw [List.filter_cons, hne]; simp
        rw [hrhs]
        refine ih (failureField f :: seen) ?_
        simp only [List.mem_cons, not_or]
        exact ⟨fun h => hf h.symm, hnin⟩

/-- Formatted errors for a given field are exactly the formatting of
the first raw failure carrying that field. -/
theorem formatErrors_filter (es : List VFailure) (fld : String) :
    (formatErrors es).filter (fun e => e.field == fld) =
      (match es.filter (fun f => failureField f == fld) with
       | [] => ([] : List ValidationError)
       | f :: _ => [mkValidationError f]) := by
  rw [formatErrors_eq_spec]
  exact dedupFrom_filter_first fld es [] (by simp)

/-- The ValidationError built from a leaf failure of a non-branded,
message-free field codec receiving null/undefined is the generic
REQUIRED error. -/
theorem mkValidationError_required (rootE : ContextEntry) (k : String) (S : Codec)
    (ak : Value) (hk : k ≠ "")
    (hname : lookupTypeErrorInfo (codecName S) = none)
    (hnameNe : codecName S ≠ "") (hcustom : customOf S = none)
    (hak : ak = .undef ∨ ak = .null) :
    mkValidationError ⟨ak, [rootE, ⟨k, typeInfoOf S, ak⟩], none⟩ =
      ⟨k, "Field is required", ak, codecName S, "REQUIRED",
        some ("Please provide a value of type " ++ codecName S)⟩ := by
  have hff : failureField ⟨ak, [rootE, ⟨k, typeInfoOf S, ak⟩], none⟩ = k :=
    failureField_single rootE k (typeInfoOf S) ak ak none hk
  have hlast : ([rootE, ⟨k, typeInfoOf S, ak⟩] : List ContextEntry).getLast? =
      some ⟨k, typeInfoOf S, ak⟩ := by simp
  have hexp : getExpectedType [rootE, ⟨k, typeInfoOf S, ak⟩] = codecName S := by
    simp [getExpectedType, hlast, typeInfoOf, hnameNe]
  have hinfo : getErrorInfo (codecName S) ak none =
      ⟨"REQUIRED", "Field is required",
        some ("Please provide a value of type " ++ codecName S)⟩ := by
    rcases hak with rfl | rfl <;> simp [getErrorInfo, hname]
  have hcust2 : (match ([rootE, ⟨k, typeInfoOf S, ak⟩] : List ContextEntry).getLast? with
      | none => none
      | some e => e.type_.custom) = (none : Option CustomErrorMessages) := by
    rw [hlast]; simp [typeInfoOf, hcustom]
  simp only [mkValidationError, hff, hexp, hcust2, hinfo]

/-- Counterexample to claim C2: for a record whose required field is a
branded type (here Email), omitting the field yields an error whose
code is the branded code INVALID_EMAIL, not REQUIRED. -/
theorem claim2_counterexample :
    (formatErrors (errsOf (decode (.record (.cons "email" EmailC .nil)) (.obj [])))).map
        (fun e => (e.field, e.code)) = [("email", "INVALID_EMAIL")] ∧
    ("INVALID_EMAIL" : String) ≠ "REQUIRED" := by
  constructor <;> decide

/-- Amended claim C2: for every record schema with required fields
whose keys are nonempty, distinct and bracket/dot-free, and for every
such field whose codec rejects null/undefined as a single leaf failure
(as all non-branded primitive, record and array codecs do), is not a
known branded type, has a nonempty name and carries no custom message
binding, decoding an input that omits that field or sets it to
null/undefined yields exactly one formatted error for that field's
path, and its code is REQUIRED. (For branded fields the branded
default code is used instead — see the counterexample.) -/
theorem claim2_required_field_error
    (fs : Fields) (k : String) (S : Codec) (kvs : List (String × Value))
    (es : List VFailure) (ups : List (String × Value))
    (hmem : (k, S) ∈ fieldsList fs)
    (hnodup : (fieldsKeys fs).Nodup)
    (hkeys : ∀ k' ∈ fieldsKeys fs, k' ≠ "")
    (hdot : '.' ∉ k.toList) (hbr : '[' ∉ k.toList)
    (hleafU : ∀ c, validate S .undef c = .ok (.errs [⟨.undef, c, none⟩]))
    (hleafN : ∀ c, validate S .null c = .ok (.errs [⟨.null, c, none⟩]))
    (hname : lookupTypeErrorInfo (codecName S) = none)
    (hnameNe : codecName S ≠ "")
    (hcustom : customOf S = none)
    (hak : jsLookup k kvs = .undef ∨ jsLookup k kvs = .null)
    (hvf : validateFields fs kvs [⟨"", typeInfoOf (.record fs), .obj kvs⟩] = .ok (es, ups)) :
    decode (.record fs) (.obj kvs) = .ok (.errs es) ∧
    (formatErrors es).filter (fun e => e.field == k) =
      [⟨k, "Field is required", jsLookup k kvs, codecName S, "REQUIRED",
        some ("Please provide a value of type " ++ codecName S)⟩] := by
  have hk : k ≠ "" := hkeys k (fieldsList_key_mem fs k S hmem)
  have hes : es = fieldsFailures fs kvs [⟨"", typeInfoOf (.record fs), .obj kvs⟩] :=
    validateFields_failures fs kvs _ es ups hvf
  have hfil : es.filter (fun f => failureField f == k) =
      [⟨jsLookup k kvs,
        [⟨"", typeInfoOf (.record fs), .obj kvs⟩, ⟨k, typeInfoOf S, jsLookup k kvs⟩],
        none⟩] := by
    rw [hes]
    exact fieldsFailures_filter_eq k S kvs _ hk hdot hbr hleafU hleafN hak fs
      hmem hnodup hkeys
  have hnonempty : es.isEmpty = false := by
    rcases hemp : es with _ | _
    · rw [hemp] at hfil; simp at hfil
    · rfl
  constructor
  · show validate (.record fs) (.obj kvs) _ = _
    simp only [validate, hvf, hnonempty, Bool.false_eq_true, if_false]
  · rw [formatErrors_filter, hfil]
    simp only
    rw [mkValidationError_required _ k S (jsLookup k kvs) hk hname hnameNe hcustom hak]

/-- Witness for the amended claim C2: a `{name: string, price: number}`
record decoding an object that omits `price` yields exactly one error
for field "price" with code REQUIRED. -/
theorem claim2_witness :
    decode (.record (.cons "name" stringC (.cons "price" numberC .nil)))
        (.obj [("name", .str "x")]) =
      .ok (.errs [⟨.undef,
        [⟨"", typeInfoOf (.record (.cons "name" stringC (.cons "price" numberC .nil))),
          .obj [("name", .str "x")]⟩,
         ⟨"price", typeInfoOf numberC, .undef⟩], none⟩]) ∧
    (formatErrors [⟨.undef,
        [⟨"", typeInfoOf (.record (.cons "name" stringC (.cons "price" numberC .nil))),
          .obj [("name", .str "x")]⟩,
         ⟨"price", typeInfoOf numberC, .undef⟩], none⟩]).filter
        (fun e => e.field == "price") =
      [⟨"price", "Field is required", .undef, "number", "REQUIRED",
        some "Please provide a value of type number"⟩] :=
  claim2_required_field_error
    (.cons "name" stringC (.cons "price" numberC .nil)) "price" numberC
    [("name", .str "x")]
    [⟨.undef,
      [⟨"", typeInfoOf (.record (.cons "name" stringC (.cons "price" numberC .nil))),
        .obj [("name", .str "x")]⟩,
       ⟨"price", typeInfoOf numberC, .undef⟩], none⟩]
    [("name", .str "x")]
    (by simp [fieldsList])
    (by decide)
    (by decide)
    (by decide)
    (by decide)
    (fun c => rfl)
    (fun c => rfl)
    (by decide)
    (by decide)
    rfl
    (Or.inl rfl)
    rfl

end NestIoTs
